import Mathlib

/-!
Verification of the link-aggregation and Hi-C scoring core of the jcvi
assembly toolkit, embedded from `src/assembly/bundle.py` (the `bed`
action) and `src/assembly/hic.py` (`score_evaluate`, `make_bins`).
-/

/-- Strand of an alignment record (`+` or `-`).  The source only ever maps
strands through the dictionary `{'+': '-', '-': '+'}` (anything else would
raise a `KeyError`), so the strand field is modelled as a two-valued type. -/
inductive Strand where
  | plus
  | minus
deriving DecidableEq

/-- The strand flip performed by `reverse_complement`
(`{'+': '-', '-': '+'}[self.strand]`). -/
def flipStrand : Strand → Strand
  | Strand.plus => Strand.minus
  | Strand.minus => Strand.plus

/-- One alignment record of a bed line as used by `bundle.bed`: sequence id,
`start`, `end` (named `stop` here because `end` is a reserved word), read
name `accn`, and `strand`. -/
structure BedLine where
  seqid : String
  start : Int
  stop : Int
  accn : String
  strand : Strand
deriving DecidableEq

/-- The lambda `rs = lambda x: x.accn[:-1]` in `bundle.bed`: the mate id is
the read name with its last character dropped. -/
def rs (x : BedLine) : String := x.accn.dropRight 1

/-- `s.rstrip('-')`: drop every trailing reverse-marker character. -/
def rstripDash (s : String) : String :=
  ⟨(s.data.reverse.dropWhile (fun c => c = '-')).reverse⟩

/-- Toggle the trailing reverse-marker of a sequence id: drop a trailing
`-`, otherwise append one (`if self.seqid[-1] == '-': seqid = seqid[:-1]
else: seqid += '-'`). -/
def toggleMark (s : String) : String :=
  if s.data.getLast? = some '-' then ⟨s.data.dropLast⟩ else ⟨s.data ++ ['-']⟩

/-- Modelled from the spec: `BedLine.reverse_complement` is defined in
`jcvi/formats/bed.py`, which is not under `src/`.  Per the spec (§4.1 step
5, §4.2, §8) it toggles the trailing reverse-marker `-` on the sequence id,
reflects the record's coordinates within the contig (whose length is looked
up under the marker-stripped id), and flips the strand. -/
def reverse_complement (sizes : String → Int) (x : BedLine) : BedLine :=
  let size := sizes (rstripDash x.seqid)
  { seqid := toggleMark x.seqid
    start := size - x.stop + 1
    stop := size - x.start + 1
    accn := x.accn
    strand := flipStrand x.strand }

/-- Strand normalization of `bundle.bed` (lines 98-106): if both strands
are equal, reverse-complement `b` when both are `+` and `a` when both are
`-`; afterwards, if `b` is on strand `+` (the `-+` case), swap the two
records. -/
def strand_normalize (sizes : String → Int) (a b : BedLine) :
    BedLine × BedLine :=
  let ab :=
    if a.strand = b.strand then
      if b.strand = Strand.plus then (a, reverse_complement sizes b)
      else (reverse_complement sizes a, b)
    else (a, b)
  if ab.2.strand = Strand.plus then (ab.2, ab.1) else ab

/-- `ahang = size - a.start + 1` where `size` is the length of the first
record's contig, looked up under the marker-stripped id (lines 112-114). -/
def ahang_of (sizes : String → Int) (a : BedLine) : Int :=
  sizes (rstripDash a.seqid) - a.start + 1

/-- `bhang = b.end` (line 115). -/
def bhang_of (b : BedLine) : Int := b.stop

/-- `hangs = ahang + bhang` (line 124). -/
def hangs_of (sizes : String → Int) (a b : BedLine) : Int :=
  ahang_of sizes a + bhang_of b

/-- Lexicographic comparison of sequence ids by character code, i.e.
Python's `<` on `str` (stated on the character lists so that it is
decidable by structural recursion). -/
def strLt (s t : String) : Prop := s.data < t.data

instance strLt.instDecidable (s t : String) : Decidable (strLt s t) :=
  inferInstanceAs (Decidable (s.data < t.data))

/-- `strLt` agrees with the lexicographic order on `String`. -/
theorem strLt_iff (s t : String) : strLt s t ↔ s < t :=
  Iff.symm String.lt_iff_toList_lt

/-- Canonicalization of `bundle.bed` (lines 131-135): if `a.seqid >
b.seqid`, reverse-complement both records and swap them. -/
def canonicalize (sizes : String → Int) (a b : BedLine) :
    BedLine × BedLine :=
  if strLt b.seqid a.seqid then
    (reverse_complement sizes b, reverse_complement sizes a)
  else (a, b)

/-- Outcome of the per-pair part of the `bundle.bed` loop body: `skip`
models a `continue`, `fail` models a failure of the strand assertion on
line 107, and `vote` carries the canonical contig-pair key, the mate id
and the hang sum that lines 142-151 go on to record. -/
inductive PairResult where
  | skip
  | fail
  | vote (key : String × String) (pe : String) (hangs : Int)
deriving DecidableEq

/-- The per-pair part of the `bundle.bed` loop body (lines 83-135): mate-id
check, same-seqid check, strand normalization, the strand assertion, hang
computation, the cutoff filter, and canonicalization. -/
def processPair (sizes : String → Int) (maxcutoff : Int) (a0 b0 : BedLine) :
    PairResult :=
  if rs a0 ≠ rs b0 then PairResult.skip
  else if a0.seqid = b0.seqid then PairResult.skip
  else
    let ab := strand_normalize sizes a0 b0
    if ab.1.strand = Strand.plus ∧ ab.2.strand = Strand.minus then
      let hangs := hangs_of sizes ab.1 ab.2
      if hangs > maxcutoff then PairResult.skip
      else
        let cd := canonicalize sizes ab.1 ab.2
        PairResult.vote (cd.1.seqid, cd.2.seqid) (rs a0) hangs
    else PairResult.fail

/-- After strand normalization the first record is on strand `+` and the
second on strand `-`, whatever the input strands were. -/
theorem strand_normalize_post (sizes : String → Int) (a b : BedLine) :
    (strand_normalize sizes a b).1.strand = Strand.plus ∧
      (strand_normalize sizes a b).2.strand = Strand.minus := by
  cases ha : a.strand <;> cases hb : b.strand <;>
    simp [strand_normalize, reverse_complement, flipStrand, ha, hb]

/-- C1: for every mate pair (hence for each of the four strand
combinations), strand normalization leaves the first record on strand `+`
and the second on strand `-`; consequently the post-normalization strand
assertion of `bundle.bed` never fails, i.e. `processPair` never returns
the assertion-failure outcome. -/
theorem c1_strand_normalization :
    (∀ (sizes : String → Int) (a b : BedLine),
        (strand_normalize sizes a b).1.strand = Strand.plus ∧
          (strand_normalize sizes a b).2.strand = Strand.minus) ∧
      ∀ (sizes : String → Int) (maxcutoff : Int) (a b : BedLine),
        processPair sizes maxcutoff a b ≠ PairResult.fail := by
  refine ⟨strand_normalize_post, ?_⟩
  intro sizes maxcutoff a b
  unfold processPair
  obtain ⟨h1, h2⟩ := strand_normalize_post sizes a b
  split
  · simp
  · split
    · simp
    · rw [if_pos ⟨h1, h2⟩]
      dsimp only
      split <;> simp

/-- C5: for every mate pair reaching the cutoff filter (same mate id,
distinct sequence ids), the pair is discarded exactly when the hang sum
strictly exceeds `maxcutoff`; when the hang sum is at most `maxcutoff`
(in particular when it equals it) the pair proceeds to the vote with that
hang sum. -/
theorem c5_cutoff_filter (sizes : String → Int) (maxcutoff : Int)
    (a b : BedLine) (hrs : rs a = rs b) (hseq : a.seqid ≠ b.seqid) :
    (hangs_of sizes (strand_normalize sizes a b).1
          (strand_normalize sizes a b).2 > maxcutoff →
        processPair sizes maxcutoff a b = PairResult.skip) ∧
      (hangs_of sizes (strand_normalize sizes a b).1
            (strand_normalize sizes a b).2 ≤ maxcutoff →
        processPair sizes maxcutoff a b =
          PairResult.vote
            ((canonicalize sizes (strand_normalize sizes a b).1
                (strand_normalize sizes a b).2).1.seqid,
              (canonicalize sizes (strand_normalize sizes a b).1
                (strand_normalize sizes a b).2).2.seqid)
            (rs a)
            (hangs_of sizes (strand_normalize sizes a b).1
              (strand_normalize sizes a b).2)) := by
  obtain ⟨h1, h2⟩ := strand_normalize_post sizes a b
  unfold processPair
  rw [if_neg (by simp [hrs]), if_neg hseq]
  dsimp only
  rw [if_pos ⟨h1, h2⟩]
  constructor
  · intro hgt
    rw [if_pos hgt]
  · intro hle
    rw [if_neg (not_lt.mpr hle)]

/-- Concrete sequence-length table used by the witnesses: every contig has
length 100. -/
def cSizes : String → Int := fun _ => 100

/-- Concrete first record for the cutoff witness. -/
def cA : BedLine :=
  { seqid := "aa", start := 90, stop := 95, accn := "p1",
    strand := Strand.plus }

/-- Concrete second record for the cutoff witness. -/
def cB : BedLine :=
  { seqid := "bb", start := 1, stop := 5, accn := "p2",
    strand := Strand.minus }

/-- Witness for C5: for the concrete pair `cA`, `cB` the hang sum is
exactly `16 = maxcutoff`, and the pair passes the filter and is voted. -/
theorem c5_cutoff_filter_witness :
    processPair cSizes 16 cA cB =
      PairResult.vote
        ((canonicalize cSizes (strand_normalize cSizes cA cB).1
            (strand_normalize cSizes cA cB).2).1.seqid,
          (canonicalize cSizes (strand_normalize cSizes cA cB).1
            (strand_normalize cSizes cA cB).2).2.seqid)
        (rs cA)
        (hangs_of cSizes (strand_normalize cSizes cA cB).1
          (strand_normalize cSizes cA cB).2) :=
  (c5_cutoff_filter cSizes 16 cA cB (by decide) (by decide)).2 (by decide)

/-- Edge emission of `bundle.bed` (lines 164-173): the orientation symbol
is determined from the two-character string `lastdigits` formed by the last
characters of the two stored ids (`'-' in lastdigits and lastdigits !=
'--'`), and both ids are emitted with their trailing reverse-markers
stripped (`rstrip('-')`). -/
def emitted_edge (pair : String × String) : String × String × Char :=
  let lastdigits : List Char := [pair.1.back, pair.2.back]
  let orientation : Char :=
    if '-' ∈ lastdigits ∧ lastdigits ≠ ['-', '-'] then '-' else '+'
  (rstripDash pair.1, rstripDash pair.2, orientation)

theorem head?_dropWhile_false {α : Type} (p : α → Bool) :
    ∀ (l : List α) (c : α), (l.dropWhile p).head? = some c → p c = false := by
  intro l
  induction l with
  | nil => intro c h; simp [List.dropWhile] at h
  | cons x xs ih =>
    intro c h
    rw [List.dropWhile_cons] at h
    by_cases hx : p x
    · rw [if_pos hx] at h
      exact ih c h
    · rw [if_neg hx] at h
      simp at h
      rw [← h]
      exact Bool.of_not_eq_true hx

/-- The result of `rstrip('-')` never ends in the reverse-marker. -/
theorem rstripDash_no_trailing (s : String) :
    (rstripDash s).data.getLast? ≠ some '-' := by
  unfold rstripDash
  intro h
  simp only [List.getLast?_reverse] at h
  have := head?_dropWhile_false (fun c => c = '-') s.data.reverse '-' h
  simp at this

/-- C7: the emitted edge's orientation symbol is `-` exactly when exactly
one of the two stored contig ids ends in the reverse-marker `-` (and `+`
otherwise, including when both end in `-`), and both emitted ids are the
stored ids with all trailing reverse-markers stripped, hence end in no
reverse-marker. -/
theorem c7_orientation (a b : String) :
    ((emitted_edge (a, b)).2.2 = '-' ↔
        ((a.back = '-' ∨ b.back = '-') ∧ ¬(a.back = '-' ∧ b.back = '-'))) ∧
      ((emitted_edge (a, b)).2.2 = '+' ↔
        ¬((a.back = '-' ∨ b.back = '-') ∧ ¬(a.back = '-' ∧ b.back = '-'))) ∧
      (emitted_edge (a, b)).1 = rstripDash a ∧
      (emitted_edge (a, b)).2.1 = rstripDash b ∧
      (emitted_edge (a, b)).1.data.getLast? ≠ some '-' ∧
      (emitted_edge (a, b)).2.1.data.getLast? ≠ some '-' := by
  have hcond : ('-' ∈ [a.back, b.back] ∧ ([a.back, b.back] : List Char) ≠ ['-', '-']) ↔
      ((a.back = '-' ∨ b.back = '-') ∧ ¬(a.back = '-' ∧ b.back = '-')) := by
    constructor
    · rintro ⟨hm, hne⟩
      refine ⟨?_, ?_⟩
      · rcases List.mem_cons.mp hm with h | h
        · exact Or.inl h.symm
        · simp at h
          exact Or.inr h.symm
      · rintro ⟨ha, hb⟩
        exact hne (by rw [ha, hb])
    · rintro ⟨hor, hnand⟩
      refine ⟨?_, ?_⟩
      · rcases hor with h | h
        · simp [h]
        · simp [h]
      · intro h
        simp at h
        exact hnand ⟨h.1, h.2⟩
  have hor : (emitted_edge (a, b)).2.2 =
      if ('-' ∈ [a.back, b.back] ∧ ([a.back, b.back] : List Char) ≠ ['-', '-'])
      then '-' else '+' := rfl
  refine ⟨?_, ?_, rfl, rfl, rstripDash_no_trailing a, rstripDash_no_trailing b⟩
  · rw [hor]
    by_cases hc : ((a.back = '-' ∨ b.back = '-') ∧ ¬(a.back = '-' ∧ b.back = '-'))
    · rw [if_pos (hcond.mpr hc)]
      exact iff_of_true rfl hc
    · rw [if_neg (fun h => hc (hcond.mp h))]
      exact iff_of_false (by decide) hc
  · rw [hor]
    by_cases hc : ((a.back = '-' ∨ b.back = '-') ∧ ¬(a.back = '-' ∧ b.back = '-'))
    · rw [if_pos (hcond.mpr hc)]
      exact iff_of_false (by decide) (fun h => h hc)
    · rw [if_neg (fun h => hc (hcond.mp h))]
      exact iff_of_true rfl hc

/-- The vote table `contigGraph` of `bundle.bed`: a `defaultdict(list)`
from a canonical contig pair to its list of `(pair_id, hangs)` votes. -/
def ContigGraph : Type := String × String → List (String × Int)

/-- `seqid.split("_")[0]`: the prefix token used by the optional `--prefix`
filter. -/
def firstTok (s : String) : String := (s.splitOn "_").headD ""

/-- Vote recording of `bundle.bed` (lines 142-151): skip the vote if its
hang sum already appears among the recorded votes for this pair
(redundancy filter), then, when the `--prefix` option is on, skip it if
the two ids have different prefix tokens, otherwise append it. -/
def recordVote (usePre : Bool) (g : ContigGraph) (key : String × String)
    (pe : String) (hangs : Int) : ContigGraph :=
  if hangs ∈ (g key).map Prod.snd then g
  else if usePre ∧ firstTok key.1 ≠ firstTok key.2 then g
  else fun k => if k = key then g key ++ [(pe, hangs)] else g k

/-- One iteration of the `bundle.bed` loop: process the record pair and
record the resulting vote, if any. -/
def bedStep (sizes : String → Int) (maxcutoff : Int) (usePre : Bool)
    (g : ContigGraph) (ab : BedLine × BedLine) : ContigGraph :=
  match processPair sizes maxcutoff ab.1 ab.2 with
  | PairResult.vote key pe hangs => recordVote usePre g key pe hangs
  | _ => g

/-- `jcvi.utils.iter.pairwise`: the overlapping-window iterator
`s -> (s0,s1), (s1,s2), (s2,s3), ...` that feeds the loop. -/
def pairwise {α : Type} (l : List α) : List (α × α) := l.zip l.tail

/-- The full vote-aggregation pass of `bundle.bed` over a record stream,
starting from the empty `defaultdict(list)`. -/
def contigGraphOf (sizes : String → Int) (maxcutoff : Int) (usePre : Bool)
    (records : List BedLine) : ContigGraph :=
  (pairwise records).foldl (bedStep sizes maxcutoff usePre) (fun _ => [])

theorem recordVote_nodup (usePre : Bool) (g : ContigGraph)
    (key : String × String) (pe : String) (hangs : Int)
    (h : ∀ k, ((g k).map Prod.snd).Nodup) :
    ∀ k, (((recordVote usePre g key pe hangs) k).map Prod.snd).Nodup := by
  intro k
  unfold recordVote
  split
  · exact h k
  · split
    · exact h k
    · show (List.map Prod.snd
        (if k = key then g key ++ [(pe, hangs)] else g k)).Nodup
      by_cases hk : k = key
      · rw [if_pos hk]
        rw [List.map_append]
        rw [List.nodup_append]
        refine ⟨h key, List.nodup_singleton _, ?_⟩
        intro x hx hx'
        simp at hx'
        rw [hx'] at hx
        exact absurd hx (by assumption)
      · rw [if_neg hk]
        exact h k

theorem bedStep_nodup (sizes : String → Int) (maxcutoff : Int)
    (usePre : Bool) (g : ContigGraph) (ab : BedLine × BedLine)
    (h : ∀ k, ((g k).map Prod.snd).Nodup) :
    ∀ k, (((bedStep sizes maxcutoff usePre g ab) k).map Prod.snd).Nodup := by
  intro k
  unfold bedStep
  rcases hp : processPair sizes maxcutoff ab.1 ab.2 with _ | _ | ⟨key2, pe2, hangs2⟩ <;>
    simp only [hp]
  · exact h k
  · exact h k
  · exact recordVote_nodup _ _ _ _ _ h k

theorem foldl_bedStep_nodup (sizes : String → Int) (maxcutoff : Int)
    (usePre : Bool) :
    ∀ (l : List (BedLine × BedLine)) (g : ContigGraph),
      (∀ k, ((g k).map Prod.snd).Nodup) →
      ∀ k, (((l.foldl (bedStep sizes maxcutoff usePre) g) k).map
        Prod.snd).Nodup := by
  intro l
  induction l with
  | nil => intro g h k; exact h k
  | cons ab rest ih =>
    intro g h k
    exact ih _ (bedStep_nodup _ _ _ _ _ h) k

/-- C6: (i) after aggregating any record stream, no contig pair's vote
list contains two votes with the same hang sum (so the invariant holds at
every point of the aggregation, every intermediate table being the result
of aggregating a prefix of the stream); (ii) recording a second vote with
a hang sum already recorded for that pair leaves the table unchanged;
(iii) feeding two votes with identical hang sum for the same pair into an
empty table stores exactly one vote. -/
theorem c6_redundancy_filter :
    (∀ (sizes : String → Int) (maxcutoff : Int) (usePre : Bool)
        (records : List BedLine) (key : String × String),
        (((contigGraphOf sizes maxcutoff usePre records) key).map
          Prod.snd).Nodup) ∧
      (∀ (usePre : Bool) (g : ContigGraph) (key : String × String)
          (pe1 pe2 : String) (hangs : Int),
          recordVote usePre (recordVote usePre g key pe1 hangs) key pe2 hangs =
            recordVote usePre g key pe1 hangs) ∧
      ∀ (key : String × String) (pe1 pe2 : String) (hangs : Int),
        (recordVote false (recordVote false (fun _ => []) key pe1 hangs)
          key pe2 hangs) key = [(pe1, hangs)] := by
  refine ⟨?_, ?_, ?_⟩
  · intro sizes maxcutoff usePre records key
    exact foldl_bedStep_nodup sizes maxcutoff usePre (pairwise records)
      (fun _ => []) (fun _ => List.nodup_nil) key
  · intro usePre g key pe1 pe2 hangs
    by_cases h1 : hangs ∈ (g key).map Prod.snd
    · have e1 : recordVote usePre g key pe1 hangs = g := by
        rw [recordVote, if_pos h1]
      rw [e1, recordVote, if_pos h1]
    · by_cases h2 : usePre = true ∧ firstTok key.1 ≠ firstTok key.2
      · have e1 : recordVote usePre g key pe1 hangs = g := by
          rw [recordVote, if_neg h1, if_pos h2]
        rw [e1, recordVote, if_neg h1, if_pos h2]
      · have e1 : recordVote usePre g key pe1 hangs =
            fun k => if k = key then g key ++ [(pe1, hangs)] else g k := by
          rw [recordVote, if_neg h1, if_neg h2]
        have hmem : hangs ∈ (((fun k =>
            if k = key then g key ++ [(pe1, hangs)] else g k) : ContigGraph)
              key).map Prod.snd := by
          simp
        rw [e1, recordVote, if_pos hmem]
  · intro key pe1 pe2 hangs
    have hg1 : recordVote false (fun _ => []) key pe1 hangs =
        fun k => if k = key then ([] : List (String × Int)) ++ [(pe1, hangs)]
          else [] := by
      rw [recordVote, if_neg (by simp), if_neg (by simp)]
    rw [hg1]
    have hmem : hangs ∈ ((fun k =>
        if k = key then ([] : List (String × Int)) ++ [(pe1, hangs)]
          else []) key).map Prod.snd := by
      simp
    rw [recordVote, if_pos hmem]
    simp

/-- `np.cumsum` with a running accumulator: `cumsum_from acc l` is the list
of the partial sums `acc + l[0] + ... + l[k]`. -/
def cumsum_from (acc : ℚ) : List ℚ → List ℚ
  | [] => []
  | x :: xs => (acc + x) :: cumsum_from (acc + x) xs

/-- `sizes_cum = np.cumsum(sizes_oo)`: inclusive prefix sums
(`sizes_cum[k] = sizes_oo[0] + ... + sizes_oo[k]`). -/
def cumsum (l : List ℚ) : List ℚ := cumsum_from 0 l

/-- The double loop of `hic.score_evaluate` (lines 155-166): for every
`ia < ib`, add `tour_M[tour[ia], tour[ib]] / (sizes_cum[ib] -
sizes_cum[ia])`.  The float arithmetic of the source is modelled exactly
over `ℚ`. -/
def score_evaluate_sum (tour : List ℕ) (tour_sizes : ℕ → ℚ)
    (tour_M : ℕ → ℕ → ℚ) : ℚ :=
  let sizes_oo := tour.map tour_sizes
  let sizes_cum := cumsum sizes_oo
  ∑ ia ∈ Finset.range tour.length, ∑ ib ∈ Finset.Ico (ia + 1) tour.length,
    tour_M (tour.getD ia 0) (tour.getD ib 0) /
      (sizes_cum.getD ib 0 - sizes_cum.getD ia 0)

/-- `hic.score_evaluate` ends with `return s,`: the fitness is returned as
a one-element tuple, modelled as a one-element list. -/
def score_evaluate (tour : List ℕ) (tour_sizes : ℕ → ℚ)
    (tour_M : ℕ → ℕ → ℚ) : List ℚ :=
  [score_evaluate_sum tour tour_sizes tour_M]

/-- The spec's cumulative size: `cumulative_size[k] = Σ size[tour[0..k]]`,
the prefix sum of the contig sizes taken in tour order. -/
def spec_cumulative (tour : List ℕ) (tour_sizes : ℕ → ℚ) (k : ℕ) : ℚ :=
  ∑ t ∈ Finset.range (k + 1), tour_sizes (tour.getD t 0)

/-- The spec's fitness: `Σ_{i<j} contact(tour[i], tour[j]) /
(cumulative_size[j] - cumulative_size[i])`. -/
def spec_fitness (tour : List ℕ) (tour_sizes : ℕ → ℚ)
    (tour_M : ℕ → ℕ → ℚ) : ℚ :=
  ∑ i ∈ Finset.range tour.length, ∑ j ∈ Finset.Ico (i + 1) tour.length,
    tour_M (tour.getD i 0) (tour.getD j 0) /
      (spec_cumulative tour tour_sizes j - spec_cumulative tour tour_sizes i)

theorem cumsum_from_getD (acc : ℚ) :
    ∀ (l : List ℚ) (k : ℕ), k < l.length →
      (cumsum_from acc l).getD k 0 =
        acc + ∑ t ∈ Finset.range (k + 1), l.getD t 0 := by
  intro l
  induction l generalizing acc with
  | nil => intro k hk; simp at hk
  | cons x xs ih =>
    intro k hk
    cases k with
    | zero => simp [cumsum_from]
    | succ k =>
      have hk' : k < xs.length := by simpa using hk
      have := ih (acc + x) k hk'
      rw [cumsum_from]
      simp only [List.getD_cons_succ]
      rw [this]
      conv_rhs => rw [Finset.sum_range_succ']
      simp only [List.getD_cons_succ, List.getD_cons_zero]
      ring

theorem cumsum_map_getD (tour : List ℕ) (tour_sizes : ℕ → ℚ) (k : ℕ)
    (hk : k < tour.length) :
    (cumsum (tour.map tour_sizes)).getD k 0 =
      spec_cumulative tour tour_sizes k := by
  unfold cumsum spec_cumulative
  rw [cumsum_from_getD 0 (tour.map tour_sizes) k (by simpa using hk)]
  rw [zero_add]
  refine Finset.sum_congr rfl ?_
  intro t ht
  have ht' : t < tour.length := by
    have := Finset.mem_range.mp ht
    omega
  rw [List.getD_eq_getElem _ _ (by simpa using ht'),
    List.getElem_map, List.getD_eq_getElem _ _ ht']

/-- C2: the evaluator returns (as the single element of its tuple) exactly
the spec's fitness: the sum over all `i < j` of
`contact(tour[i], tour[j]) / (cumulative_size[j] - cumulative_size[i])`
with `cumulative_size` the prefix sum of sizes in tour order. -/
theorem c2_fitness_formula (tour : List ℕ) (tour_sizes : ℕ → ℚ)
    (tour_M : ℕ → ℕ → ℚ) :
    score_evaluate tour tour_sizes tour_M =
      [spec_fitness tour tour_sizes tour_M] := by
  unfold score_evaluate score_evaluate_sum spec_fitness
  refine congrArg (fun q => [q]) ?_
  refine Finset.sum_congr rfl ?_
  intro i hi
  refine Finset.sum_congr rfl ?_
  intro j hj
  have hi' : i < tour.length := Finset.mem_range.mp hi
  have hj' : j < tour.length := (Finset.mem_Ico.mp hj).2
  rw [cumsum_map_getD tour tour_sizes i hi', cumsum_map_getD tour tour_sizes j hj']

/-- The size array of the spec's worked example: sizes 100, 200, 150. -/
def exampleSizes : ℕ → ℚ
  | 0 => 100
  | 1 => 200
  | _ => 150

/-- The contact matrix of the spec's worked example: `M[0][1]=10`,
`M[0][2]=5`, `M[1][2]=20`, all other entries 0. -/
def exampleM : ℕ → ℕ → ℚ
  | 0, 1 => 10
  | 0, 2 => 5
  | 1, 2 => 20
  | _, _ => 0

/-- Counterexample for C4: on the identity tour with sizes
`[100, 200, 150]`, the evaluator does not return
`10/100 + 5/250 + 20/150` (≈ 0.2867): the inclusive prefix sums are
`[100, 300, 450]`, so the pair denominators are 200, 350 and 150, not
100, 250 and 150. -/
theorem c4_example_counterexample :
    score_evaluate [0, 1, 2] exampleSizes exampleM ≠
      [10 / 100 + 5 / 250 + 20 / 150] := by
  simp [score_evaluate, score_evaluate_sum, Finset.sum_Ico_eq_sum_range,
    Finset.sum_range_succ, cumsum, cumsum_from, exampleSizes, exampleM]
  norm_num

/-- C4 as amended: for the identity tour `[0, 1, 2]` with sizes
`[100, 200, 150]` and the example contact matrix, the score equals
`10/200 + 5/350 + 20/150` = 83/420 ≈ 0.1976. -/
theorem c4_example_fitness :
    score_evaluate [0, 1, 2] exampleSizes exampleM =
      [10 / 200 + 5 / 350 + 20 / 150] := by
  simp [score_evaluate, score_evaluate_sum, Finset.sum_Ico_eq_sum_range,
    Finset.sum_range_succ, cumsum, cumsum_from, exampleSizes, exampleM]
  norm_num

/-- C8: when every contig size is positive, the cumulative sizes computed
by the evaluator are strictly increasing along the tour, so every
denominator `sizes_cum[j] - sizes_cum[i]` with `i < j` is strictly
positive and in particular nonzero. -/
theorem c8_cumsum_strictly_increasing :
    ∀ (tour : List ℕ) (tour_sizes : ℕ → ℚ), (∀ x, 0 < tour_sizes x) →
      ∀ i j, i < j → j < tour.length →
        (cumsum (tour.map tour_sizes)).getD i 0 <
            (cumsum (tour.map tour_sizes)).getD j 0 ∧
          0 < (cumsum (tour.map tour_sizes)).getD j 0 -
              (cumsum (tour.map tour_sizes)).getD i 0 ∧
          (cumsum (tour.map tour_sizes)).getD j 0 -
              (cumsum (tour.map tour_sizes)).getD i 0 ≠ 0 := by
  intro tour tour_sizes hpos i j hij hj
  have hi : i < tour.length := lt_trans hij hj
  rw [cumsum_map_getD tour tour_sizes i hi, cumsum_map_getD tour tour_sizes j hj]
  have hdiff : spec_cumulative tour tour_sizes j -
      spec_cumulative tour tour_sizes i =
      ∑ t ∈ Finset.Ico (i + 1) (j + 1), tour_sizes (tour.getD t 0) := by
    unfold spec_cumulative
    rw [Finset.sum_Ico_eq_sub _ (by omega)]
  have hsum : 0 < ∑ t ∈ Finset.Ico (i + 1) (j + 1),
      tour_sizes (tour.getD t 0) :=
    Finset.sum_pos (fun t _ => hpos _) (Finset.nonempty_Ico.mpr (by omega))
  have hlt : 0 < spec_cumulative tour tour_sizes j -
      spec_cumulative tour tour_sizes i := by rw [hdiff]; exact hsum
  exact ⟨sub_pos.mp hlt, hlt, ne_of_gt hlt⟩

/-- Witness for C8: for the two-contig tour `[0, 1]` with all sizes 1, the
cumulative sizes at positions 0 and 1 are strictly increasing and the
denominator is positive and nonzero. -/
theorem c8_cumsum_strictly_increasing_witness :
    (cumsum ([0, 1].map (fun _ => (1 : ℚ)))).getD 0 0 <
        (cumsum ([0, 1].map (fun _ => (1 : ℚ)))).getD 1 0 ∧
      0 < (cumsum ([0, 1].map (fun _ => (1 : ℚ)))).getD 1 0 -
          (cumsum ([0, 1].map (fun _ => (1 : ℚ)))).getD 0 0 ∧
      (cumsum ([0, 1].map (fun _ => (1 : ℚ)))).getD 1 0 -
          (cumsum ([0, 1].map (fun _ => (1 : ℚ)))).getD 0 0 ≠ 0 :=
  c8_cumsum_strictly_increasing [0, 1] (fun _ => 1) (fun _ => one_pos) 0 1
    (by norm_num) (by norm_num)

/-- C10: for every input the evaluator returns a one-element tuple
(modelled as a one-element list) whose single element is the fitness sum,
never a bare scalar. -/
theorem c10_tuple_return (tour : List ℕ) (tour_sizes : ℕ → ℚ)
    (tour_M : ℕ → ℕ → ℚ) :
    score_evaluate tour tour_sizes tour_M =
        [score_evaluate_sum tour tour_sizes tour_M] ∧
      (score_evaluate tour tour_sizes tour_M).length = 1 :=
  ⟨rfl, rfl⟩

/-- `int(math.ceil(size / 100000.))`: the number of 100000-unit bins a
contig of the given length occupies (exact ceiling division; the float
division of the source is exact for all representable contig lengths). -/
def nbins (size : ℕ) : ℕ := (size + 100000 - 1) / 100000

/-- The inner loop of `hic.make_bins` (lines 204-209) over one ordering
group: assign each contig the interval `(start, end)` with
`end = start + nbins(size)` and advance `start`; returns the bin list and
the final offset. -/
def binsOfTour (sizes : String → ℕ) (contig_ids : String → String) :
    List String → ℕ → List (String × ℕ × ℕ) × ℕ
  | [], start => ([], start)
  | x :: xs, start =>
    let e := start + nbins (sizes x)
    let r := binsOfTour sizes contig_ids xs e
    ((contig_ids x, start, e) :: r.1, r.2)

/-- The outer loop of `hic.make_bins` (lines 199-213) over all ordering
groups: concatenate the per-group bin assignments, record each group's
final offset in `breaks`, and return the final running offset. -/
def make_bins_go (sizes : String → ℕ) (contig_ids : String → String) :
    List (List String) → ℕ → List (String × ℕ × ℕ) × List ℕ × ℕ
  | [], start => ([], [], start)
  | t :: ts, start =>
    let r := binsOfTour sizes contig_ids t start
    let r2 := make_bins_go sizes contig_ids ts r.2
    (r.1 ++ r2.1, r.2 :: r2.2.1, r2.2.2)

/-- `hic.make_bins`: returns `(totalbins, bins, breaks)`.  The `bins`
dict is modelled as the association list of assignments in construction
order. -/
def make_bins (tours : List (List String)) (sizes : String → ℕ)
    (contig_ids : String → String) : ℕ × List (String × ℕ × ℕ) × List ℕ :=
  let r := make_bins_go sizes contig_ids tours 0
  (r.2.2, r.1, r.2.1)

/-- The spec's description of the binner: walk the contigs in
group-then-tour order and give each one the half-open interval
`(start, start + ceil(size/100000))` where `start` is the running offset,
i.e. the previous interval's end. -/
def spec_bins_go (sizes : String → ℕ) (contig_ids : String → String) :
    List String → ℕ → List (String × ℕ × ℕ)
  | [], _ => []
  | x :: xs, start =>
    (contig_ids x, start, start + nbins (sizes x)) ::
      spec_bins_go sizes contig_ids xs (start + nbins (sizes x))

/-- Total number of bins of one ordering group. -/
def tourBins (sizes : String → ℕ) (t : List String) : ℕ :=
  (t.map (fun x => nbins (sizes x))).sum

/-- `chainedFrom s l`: the intervals of `l` are contiguous starting at
offset `s` — each interval starts exactly where the previous one ends (so
consecutively constructed intervals never overlap). -/
def chainedFrom : ℕ → List (String × ℕ × ℕ) → Prop
  | _, [] => True
  | s, e :: rest => e.2.1 = s ∧ chainedFrom e.2.2 rest

theorem binsOfTour_fst (sizes : String → ℕ) (contig_ids : String → String) :
    ∀ (t : List String) (start : ℕ),
      (binsOfTour sizes contig_ids t start).1 =
        spec_bins_go sizes contig_ids t start := by
  intro t
  induction t with
  | nil => intro start; rfl
  | cons x xs ih =>
    intro start
    rw [binsOfTour, spec_bins_go]
    rw [ih]

theorem binsOfTour_snd (sizes : String → ℕ) (contig_ids : String → String) :
    ∀ (t : List String) (start : ℕ),
      (binsOfTour sizes contig_ids t start).2 = start + tourBins sizes t := by
  intro t
  induction t with
  | nil => intro start; simp [binsOfTour, tourBins]
  | cons x xs ih =>
    intro start
    rw [binsOfTour]
    dsimp only
    rw [ih]
    simp [tourBins]
    omega

theorem spec_bins_go_append (sizes : String → ℕ)
    (contig_ids : String → String) :
    ∀ (xs ys : List String) (s : ℕ),
      spec_bins_go sizes contig_ids (xs ++ ys) s =
        spec_bins_go sizes contig_ids xs s ++
          spec_bins_go sizes contig_ids ys (s + tourBins sizes xs) := by
  intro xs
  induction xs with
  | nil => intro ys s; simp [spec_bins_go, tourBins]
  | cons x xs ih =>
    intro ys s
    rw [List.cons_append, spec_bins_go, spec_bins_go, ih]
    have : s + nbins (sizes x) + tourBins sizes xs =
        s + tourBins sizes (x :: xs) := by
      simp [tourBins]
      omega
    rw [this, List.cons_append]

theorem make_bins_go_fst (sizes : String → ℕ)
    (contig_ids : String → String) :
    ∀ (tours : List (List String)) (start : ℕ),
      (make_bins_go sizes contig_ids tours start).1 =
        spec_bins_go sizes contig_ids tours.flatten start := by
  intro tours
  induction tours with
  | nil => intro start; rfl
  | cons t ts ih =>
    intro start
    rw [make_bins_go]
    dsimp only
    rw [binsOfTour_fst, binsOfTour_snd, ih, List.flatten_cons,
      spec_bins_go_append]

theorem chainedFrom_spec_bins (sizes : String → ℕ)
    (contig_ids : String → String) :
    ∀ (l : List String) (s : ℕ),
      chainedFrom s (spec_bins_go sizes contig_ids l s) := by
  intro l
  induction l with
  | nil => intro s; trivial
  | cons x xs ih =>
    intro s
    exact ⟨rfl, ih _⟩

/-- C9: (i) the binner assigns, in group-then-tour order, exactly the
intervals `(start, start + ceil(size/100000))` with `start` the running
offset carried across contigs and group boundaries (the spec-side
construction `spec_bins_go` over the flattened groups); (ii) the
constructed intervals are contiguous and non-overlapping (each starts
where the previous ends, starting from offset 0); (iii) a single contig
of length 250000 occupies exactly 3 bins. -/
theorem c9_contact_binner :
    (∀ (sizes : String → ℕ) (contig_ids : String → String)
        (tours : List (List String)),
        (make_bins tours sizes contig_ids).2.1 =
            spec_bins_go sizes contig_ids tours.flatten 0 ∧
          chainedFrom 0 ((make_bins tours sizes contig_ids).2.1)) ∧
      make_bins [["A"]] (fun _ => 250000) (fun x => x) =
        (3, [("A", 0, 3)], [3]) := by
  constructor
  · intro sizes contig_ids tours
    have h : (make_bins tours sizes contig_ids).2.1 =
        spec_bins_go sizes contig_ids tours.flatten 0 :=
      make_bins_go_fst sizes contig_ids tours 0
    refine ⟨h, ?_⟩
    rw [h]
    exact chainedFrom_spec_bins sizes contig_ids tours.flatten 0
  · rfl

/-- Sequence ids all of whose characters sort strictly above the
reverse-marker `-` (e.g. plain alphanumeric contig names). -/
def cleanId (s : String) : Prop := ∀ c ∈ s.data, '-' < c

instance cleanId.instDecidable (s : String) : Decidable (cleanId s) :=
  inferInstanceAs (Decidable (∀ c ∈ s.data, '-' < c))

theorem list_lt_append_marks :
    ∀ {A B : List Char}, List.Lex (· < ·) A B → (∀ c ∈ B, '-' < c) →
      ∀ {u v : List Char}, (u = [] ∨ u = ['-']) → (v = [] ∨ v = ['-']) →
        List.Lex (· < ·) (A ++ u) (B ++ v) := by
  intro A B h
  induction h with
  | @nil b bs =>
    intro hB u v hu hv
    rcases hu with hu | hu
    · subst hu
      exact List.Lex.nil
    · subst hu
      exact List.Lex.rel (hB b (List.mem_cons_self b bs))
  | @cons a as bs h ih =>
    intro hB u v hu hv
    exact List.Lex.cons
      (ih (fun c hc => hB c (List.mem_cons_of_mem _ hc)) hu hv)
  | @rel a as b bs hab =>
    intro hB u v hu hv
    exact List.Lex.rel hab

theorem string_mark_lt {A B X Y : String} (hB : ∀ c ∈ B.data, '-' < c)
    (h : A < B)
    (hX : X.data = A.data ∨ X.data = A.data ++ ['-'])
    (hY : Y.data = B.data ∨ Y.data = B.data ++ ['-']) : X < Y := by
  rw [← strLt_iff] at h ⊢
  unfold strLt at h ⊢
  rcases hX with hX | hX <;> rcases hY with hY | hY <;> rw [hX, hY]
  · exact h
  · have := list_lt_append_marks h hB (Or.inl rfl) (Or.inr rfl)
    simpa using this
  · have := list_lt_append_marks h hB (Or.inr rfl) (Or.inl rfl)
    simpa using this
  · exact list_lt_append_marks h hB (Or.inr rfl) (Or.inr rfl)

theorem mark_lt_iff {A B X Y : String} (hA : cleanId A) (hB : cleanId B)
    (hne : A ≠ B)
    (hX : X.data = A.data ∨ X.data = A.data ++ ['-'])
    (hY : Y.data = B.data ∨ Y.data = B.data ++ ['-']) :
    (X < Y ↔ A < B) := by
  constructor
  · intro hXY
    rcases lt_trichotomy A B with h | h | h
    · exact h
    · exact absurd h hne
    · exact absurd hXY (lt_asymm (string_mark_lt hA h hY hX))
  · intro h
    exact string_mark_lt hB h hX hY

theorem cleanId_no_trailing {A : String} (hA : cleanId A) :
    A.data.getLast? ≠ some '-' := by
  intro h
  exact absurd (hA '-' (List.mem_of_getLast?_eq_some h)) (lt_irrefl _)

theorem toggleMark_data_clean {X A : String} (hA : cleanId A)
    (hX : X.data = A.data) : (toggleMark X).data = A.data ++ ['-'] := by
  unfold toggleMark
  rw [hX, if_neg (cleanId_no_trailing hA)]

theorem toggleMark_data_marked {X A : String}
    (hX : X.data = A.data ++ ['-']) : (toggleMark X).data = A.data := by
  unfold toggleMark
  rw [hX, if_pos (List.getLast?_concat _)]
  exact List.dropLast_concat

theorem toggleMark_toggleMark_clean {A : String} (hA : cleanId A) :
    toggleMark (toggleMark A) = A := by
  have h1 : (toggleMark A).data = A.data ++ ['-'] :=
    toggleMark_data_clean hA rfl
  have h2 : (toggleMark (toggleMark A)).data = A.data :=
    toggleMark_data_marked h1
  exact congrArg String.mk h2

/-- The contig-pair key produced by `canonicalize`, as a function of the
two sequence ids alone. -/
def keyFromSeqids (p q : String) : String × String :=
  if strLt q p then (toggleMark q, toggleMark p) else (p, q)

theorem canonicalize_key (sizes : String → Int) (x y : BedLine) :
    ((canonicalize sizes x y).1.seqid, (canonicalize sizes x y).2.seqid) =
      keyFromSeqids x.seqid y.seqid := by
  unfold canonicalize keyFromSeqids
  split <;> rfl

theorem keyFromSeqids_spec {A B X Y : String} (hA : cleanId A)
    (hB : cleanId B) (hne : A ≠ B)
    (hX : X.data = A.data ∨ X.data = A.data ++ ['-'])
    (hY : Y.data = B.data ∨ Y.data = B.data ++ ['-']) :
    (keyFromSeqids X Y).1 < (keyFromSeqids X Y).2 ∧
      (A < B → keyFromSeqids X Y = (X, Y)) ∧
      (B < A → keyFromSeqids X Y = (toggleMark Y, toggleMark X)) := by
  have hiff : strLt Y X ↔ B < A := by
    rw [strLt_iff]
    exact mark_lt_iff hB hA (fun e => hne e.symm) hY hX
  rcases lt_trichotomy A B with h | h | h
  · have hcond : ¬ strLt Y X := by rw [hiff]; exact lt_asymm h
    unfold keyFromSeqids
    rw [if_neg hcond]
    exact ⟨string_mark_lt hB h hX hY, fun _ => rfl,
      fun hba => absurd hba (lt_asymm h)⟩
  · exact absurd h hne
  · have hcond : strLt Y X := hiff.mpr h
    unfold keyFromSeqids
    rw [if_pos hcond]
    refine ⟨?_, fun hab => absurd hab (lt_asymm h), fun _ => rfl⟩
    have hY' : (toggleMark Y).data = B.data ∨
        (toggleMark Y).data = B.data ++ ['-'] := by
      rcases hY with hY | hY
      · exact Or.inr (toggleMark_data_clean hB hY)
      · exact Or.inl (toggleMark_data_marked hY)
    have hX' : (toggleMark X).data = A.data ∨
        (toggleMark X).data = A.data ++ ['-'] := by
      rcases hX with hX | hX
      · exact Or.inr (toggleMark_data_clean hA hX)
      · exact Or.inl (toggleMark_data_marked hX)
    exact string_mark_lt hA h hY' hX'

/-- The pair of sequence ids after strand normalization, as a function of
the input ids and strands alone. -/
def normSeqids (A B : String) (s t : Strand) : String × String :=
  if s = t then
    (if t = Strand.plus then (A, toggleMark B) else (toggleMark A, B))
  else if t = Strand.plus then (B, A) else (A, B)

theorem strand_normalize_seqids (sizes : String → Int) (a b : BedLine) :
    ((strand_normalize sizes a b).1.seqid,
        (strand_normalize sizes a b).2.seqid) =
      normSeqids a.seqid b.seqid a.strand b.strand := by
  cases ha : a.strand <;> cases hb : b.strand <;>
    simp [strand_normalize, normSeqids, reverse_complement, flipStrand,
      ha, hb]

/-- The canonical contig-pair key recorded by `processPair`, as a function
of the two input sequence ids and strands. -/
def keyOfPair (A B : String) (s t : Strand) : String × String :=
  keyFromSeqids (normSeqids A B s t).1 (normSeqids A B s t).2

theorem processPair_eq_skip_of_gt (sizes : String → Int) (maxcutoff : Int)
    (a b : BedLine) (h1 : rs a = rs b) (h2 : a.seqid ≠ b.seqid)
    (h3 : hangs_of sizes (strand_normalize sizes a b).1
      (strand_normalize sizes a b).2 > maxcutoff) :
    processPair sizes maxcutoff a b = PairResult.skip := by
  unfold processPair
  rw [if_neg (by simp [h1]), if_neg h2]
  dsimp only
  rw [if_pos (strand_normalize_post sizes a b), if_pos h3]

theorem processPair_eq_vote (sizes : String → Int) (maxcutoff : Int)
    (a b : BedLine) (h1 : rs a = rs b) (h2 : a.seqid ≠ b.seqid)
    (h3 : ¬ hangs_of sizes (strand_normalize sizes a b).1
      (strand_normalize sizes a b).2 > maxcutoff) :
    processPair sizes maxcutoff a b =
      PairResult.vote
        ((canonicalize sizes (strand_normalize sizes a b).1
            (strand_normalize sizes a b).2).1.seqid,
          (canonicalize sizes (strand_normalize sizes a b).1
            (strand_normalize sizes a b).2).2.seqid)
        (rs a)
        (hangs_of sizes (strand_normalize sizes a b).1
          (strand_normalize sizes a b).2) := by
  unfold processPair
  rw [if_neg (by simp [h1]), if_neg h2]
  dsimp only
  rw [if_pos (strand_normalize_post sizes a b), if_neg h3]

theorem processPair_key (sizes : String → Int) (maxcutoff : Int)
    (a b : BedLine) (k : String × String) (pe : String) (hg : Int)
    (hv : processPair sizes maxcutoff a b = PairResult.vote k pe hg) :
    a.seqid ≠ b.seqid ∧
      k = keyOfPair a.seqid b.seqid a.strand b.strand := by
  by_cases h1 : rs a = rs b
  · by_cases h2 : a.seqid = b.seqid
    · unfold processPair at hv
      rw [if_neg (by simp [h1]), if_pos h2] at hv
      exact absurd hv (by simp)
    · by_cases h3 : hangs_of sizes (strand_normalize sizes a b).1
          (strand_normalize sizes a b).2 > maxcutoff
      · rw [processPair_eq_skip_of_gt sizes maxcutoff a b h1 h2 h3] at hv
        exact absurd hv (by simp)
      · rw [processPair_eq_vote sizes maxcutoff a b h1 h2 h3] at hv
        simp only [PairResult.vote.injEq] at hv
        obtain ⟨hk, -, -⟩ := hv
        refine ⟨h2, ?_⟩
        rw [← hk]
        unfold keyOfPair
        have hn1 : (strand_normalize sizes a b).1.seqid =
            (normSeqids a.seqid b.seqid a.strand b.strand).1 :=
          congrArg Prod.fst (strand_normalize_seqids sizes a b)
        have hn2 : (strand_normalize sizes a b).2.seqid =
            (normSeqids a.seqid b.seqid a.strand b.strand).2 :=
          congrArg Prod.snd (strand_normalize_seqids sizes a b)
        rw [canonicalize_key, hn1, hn2]
  · unfold processPair at hv
    rw [if_pos h1] at hv
    exact absurd hv (by simp)

theorem keyOfPair_lt_symm {A B : String} (hA : cleanId A) (hB : cleanId B)
    (hne : A ≠ B) (s t : Strand) :
    (keyOfPair A B s t).1 < (keyOfPair A B s t).2 ∧
      keyOfPair B A t s = keyOfPair A B s t := by
  have hne' : B ≠ A := fun e => hne e.symm
  have hmA : (toggleMark A).data = A.data ++ ['-'] :=
    toggleMark_data_clean hA rfl
  have hmB : (toggleMark B).data = B.data ++ ['-'] :=
    toggleMark_data_clean hB rfl
  cases s <;> cases t
  · -- both strands `+`
    have e1 : keyOfPair A B Strand.plus Strand.plus =
        keyFromSeqids A (toggleMark B) := rfl
    have e2 : keyOfPair B A Strand.plus Strand.plus =
        keyFromSeqids B (toggleMark A) := rfl
    rw [e1, e2]
    have s1 := keyFromSeqids_spec hA hB hne (Or.inl rfl) (Or.inr hmB)
    have s2 := keyFromSeqids_spec hB hA hne' (Or.inl rfl) (Or.inr hmA)
    refine ⟨s1.1, ?_⟩
    rcases lt_trichotomy A B with h | h | h
    · rw [s2.2.2 h, s1.2.1 h, toggleMark_toggleMark_clean hA]
    · exact absurd h hne
    · rw [s2.2.1 h, s1.2.2 h, toggleMark_toggleMark_clean hB]
  · -- strands `+`, `-`
    have e1 : keyOfPair A B Strand.plus Strand.minus =
        keyFromSeqids A B := rfl
    have e2 : keyOfPair B A Strand.minus Strand.plus =
        keyFromSeqids A B := rfl
    rw [e1, e2]
    exact ⟨(keyFromSeqids_spec hA hB hne (Or.inl rfl) (Or.inl rfl)).1, rfl⟩
  · -- strands `-`, `+`
    have e1 : keyOfPair A B Strand.minus Strand.plus =
        keyFromSeqids B A := rfl
    have e2 : keyOfPair B A Strand.plus Strand.minus =
        keyFromSeqids B A := rfl
    rw [e1, e2]
    exact ⟨(keyFromSeqids_spec hB hA hne' (Or.inl rfl) (Or.inl rfl)).1, rfl⟩
  · -- both strands `-`
    have e1 : keyOfPair A B Strand.minus Strand.minus =
        keyFromSeqids (toggleMark A) B := rfl
    have e2 : keyOfPair B A Strand.minus Strand.minus =
        keyFromSeqids (toggleMark B) A := rfl
    rw [e1, e2]
    have s1 := keyFromSeqids_spec hA hB hne (Or.inr hmA) (Or.inl rfl)
    have s2 := keyFromSeqids_spec hB hA hne' (Or.inr hmB) (Or.inl rfl)
    refine ⟨s1.1, ?_⟩
    rcases lt_trichotomy A B with h | h | h
    · rw [s2.2.2 h, s1.2.1 h, toggleMark_toggleMark_clean hB]
    · exact absurd h hne
    · rw [s2.2.1 h, s1.2.2 h, toggleMark_toggleMark_clean hA]

/-- Counterexample for C3: with contig ids `c` and `c!` (the character `!`
sorts below the reverse-marker `-`), the mate pair survives the cutoff
filter but its recorded key is `("c!-", "c")`, whose first id is
lexicographically larger, and the same physical link observed from the
opposite direction lands in the different bucket `("c-", "c!")`. -/
theorem c3_canonicalization_counterexample :
    processPair (fun _ => (1000 : Int)) 10000
        { seqid := "c", start := 10, stop := 20, accn := "p1",
          strand := Strand.minus }
        { seqid := "c!", start := 5, stop := 30, accn := "p2",
          strand := Strand.minus } =
      PairResult.vote ("c!-", "c") "p" 50 ∧
      ("c" : String) < "c!-" ∧
      processPair (fun _ => (1000 : Int)) 10000
          { seqid := "c!", start := 5, stop := 30, accn := "p2",
            strand := Strand.minus }
          { seqid := "c", start := 10, stop := 20, accn := "p1",
            strand := Strand.minus } =
        PairResult.vote ("c-", "c!") "p" 50 ∧
      (("c!-", "c") : String × String) ≠ ("c-", "c!") := by
  refine ⟨by decide, ?_, by decide, by decide⟩
  rw [← strLt_iff]
  decide

/-- C3 as amended: provided every character of both input sequence ids
sorts strictly above the reverse-marker `-` (in particular for
alphanumeric contig names), every recorded vote's key has its
lexicographically smaller sequence id first, and the same physical link
observed from the opposite direction (records swapped, the strands
travelling with their records) deposits its vote in the same canonical
bucket whenever it also survives the filters. -/
theorem c3_canonicalization_amended (sizes : String → Int)
    (maxcutoff : Int) (a b : BedLine) (k : String × String) (pe : String)
    (hg : Int) (hA : cleanId a.seqid) (hB : cleanId b.seqid)
    (hv : processPair sizes maxcutoff a b = PairResult.vote k pe hg) :
    k.1 < k.2 ∧
      ∀ (k' : String × String) (pe' : String) (hg' : Int),
        processPair sizes maxcutoff b a = PairResult.vote k' pe' hg' →
          k' = k := by
  obtain ⟨hne, hk⟩ := processPair_key sizes maxcutoff a b k pe hg hv
  obtain ⟨hlt, hsymm⟩ := keyOfPair_lt_symm hA hB hne a.strand b.strand
  constructor
  · rw [hk]
    exact hlt
  · intro k' pe' hg' hv'
    obtain ⟨hne', hk'⟩ := processPair_key sizes maxcutoff b a k' pe' hg' hv'
    rw [hk', hk]
    exact hsymm

/-- Witness for C3 as amended: for the concrete clean-id pair `cA`, `cB`
the recorded key is `("aa", "bb")`, its first id is smaller, and any vote
from the swapped observation lands in the same bucket. -/
theorem c3_canonicalization_amended_witness :
    (("aa", "bb") : String × String).1 < ("aa", "bb").2 ∧
      ∀ (k' : String × String) (pe' : String) (hg' : Int),
        processPair cSizes 1000 cB cA = PairResult.vote k' pe' hg' →
          k' = ("aa", "bb") :=
  c3_canonicalization_amended cSizes 1000 cA cB ("aa", "bb") "p" 16
    (by decide) (by decide) (by decide)
